import Mathlib

/-!
Shallow embedding of `src/concurrent_hash_map.h` (class `ConcurrentHashMap`).

The C++ container is a lock-striped hash map: a vector `data_` of buckets
(each a `std::list` of key/value pairs), a fixed stripe count
`kMutexesCount = 63`, an atomic `size_`, an atomic `capacity_` (initially 63,
shifted left by 2 on each rehash), and a load-factor threshold `0.9`.

The embedding models the quiescent (sequential) semantics: locks are no-ops
when a single operation runs at a time, so each public method becomes a pure
function from the container state.  The load-factor comparison
`capacity * 0.9 <= size` (computed in `double` on exact integer operands) is
rendered exactly as `9 * capacity ≤ 10 * size`; for the capacities the
container actually attains (63·4^n) the real product `56.7·4^n` is never
within rounding distance of an integer, so the rational form agrees with the
floating-point comparison.  `std::hash` becomes an arbitrary function
`K → Nat`; `V{}` (value-initialization returned by a failed `Find`) becomes
`default` of an `Inhabited` instance; the `throw std::out_of_range` in `At`
becomes `Option.none`.
-/

set_option linter.unusedSectionVars false

namespace CHMap

open scoped List

variable {K V : Type} [DecidableEq K]

/-- `static constexpr size_t kMutexesCount = 63;` — the stripe count, which is
also the initial (and post-`Clear`) capacity. -/
def kMutexesCount : Nat := 63

/-- State of the C++ `ConcurrentHashMap`: `data_` (vector of bucket chains),
`size_`, `capacity_`, and the stored hasher `hasher_`.  `mutexes_` and the
`rehash_mutex_` carry no quiescent-state information and are omitted;
`mutexes_count_` is the constant `kMutexesCount`. -/
structure ConcurrentHashMap (K V : Type) where
  data : List (List (K × V))
  size : Nat
  capacity : Nat
  hasher : K → Nat

/-- The delegating constructors: `data_(kMutexesCount)`, `size_(0)`,
`capacity_(kMutexesCount)`.  The `expected_size` and `concurrency_level`
arguments are ignored by the C++ constructor body, so they do not appear. -/
def init (hasher : K → Nat) : ConcurrentHashMap K V :=
  { data := List.replicate kMutexesCount []
    size := 0
    capacity := kMutexesCount
    hasher := hasher }

/-- `data_[id]` viewed totally: out-of-range reads give the empty chain.
All reachable accesses use `id = hash % capacity < data_.size()`. -/
def bucket (m : ConcurrentHashMap K V) (id : Nat) : List (K × V) :=
  m.data.getD id []

/-- `FindInList(id, key)`: linear scan of bucket `id` for the first entry
whose key compares equal; `none` plays the role of the `end()` iterator. -/
def FindInList (m : ConcurrentHashMap K V) (id : Nat) (key : K) :
    Option (K × V) :=
  (bucket m id).find? (fun p => decide (p.1 = key))

/-- The trigger `static_cast<double>(capacity_) * kLoadFactor <=
static_cast<double>(size_)` with `kLoadFactor = 0.9`, as an exact rational
comparison. -/
def loadFactorReached (m : ConcurrentHashMap K V) : Bool :=
  decide (9 * m.capacity ≤ 10 * m.size)

/-- `Rehash()`: store `capacity_ << 2`, allocate `new_data(capacity_)`, then
for every entry of every old bucket `push_back` it into
`new_data[hasher_(key) % capacity_]`, and replace `data_`. -/
def Rehash (m : ConcurrentHashMap K V) : ConcurrentHashMap K V :=
  let newCap := m.capacity * 4
  { m with
    capacity := newCap
    data := m.data.flatten.foldl
      (fun d p => d.set (m.hasher p.1 % newCap)
        (d.getD (m.hasher p.1 % newCap) [] ++ [p]))
      (List.replicate newCap []) }

/-- The critical section of `Insert` (after the growth check, under the
stripe lock): bucket lookup at `hasher_(key) % capacity_`; a hit returns
`false` without modification, a miss appends `{key, value}` and increments
`size_`. -/
def insertLocked (m : ConcurrentHashMap K V) (key : K) (value : V) :
    ConcurrentHashMap K V × Bool :=
  let dataId := m.hasher key % m.capacity
  match FindInList m dataId key with
  | some _ => (m, false)
  | none =>
      ({ m with
          data := m.data.set dataId (bucket m dataId ++ [(key, value)])
          size := m.size + 1 }, true)

/-- `Insert(key, value)`: double-checked load-factor test guarding `Rehash()`
(in the quiescent semantics both reads of `size_`/`capacity_` see the same
values), then the locked critical section. -/
def Insert (m : ConcurrentHashMap K V) (key : K) (value : V) :
    ConcurrentHashMap K V × Bool :=
  let m1 := if loadFactorReached m then
              (if loadFactorReached m then Rehash m else m)
            else m
  insertLocked m1 key value

/-- `Erase(key)`: bucket lookup at `hasher_(key) % capacity_`; a hit erases
the found element (the first with an equal key) and decrements `size_`. -/
def Erase (m : ConcurrentHashMap K V) (key : K) :
    ConcurrentHashMap K V × Bool :=
  let dataId := m.hasher key % m.capacity
  match FindInList m dataId key with
  | some _ =>
      ({ m with
          data := m.data.set dataId
            ((bucket m dataId).eraseP (fun p => decide (p.1 = key)))
          size := m.size - 1 }, true)
  | none => (m, false)

/-- `Clear()`: `data_.assign(kMutexesCount, {})`, `size_ = 0`,
`capacity_ = kMutexesCount`. -/
def Clear (m : ConcurrentHashMap K V) : ConcurrentHashMap K V :=
  { m with
    data := List.replicate kMutexesCount []
    size := 0
    capacity := kMutexesCount }

/-- `Find(key)`: returns `{true, it->second}` on a hit and `{false, V{}}` on
a miss. -/
def Find [Inhabited V] (m : ConcurrentHashMap K V) (key : K) : Bool × V :=
  match FindInList m (m.hasher key % m.capacity) key with
  | some p => (true, p.2)
  | none => (false, default)

/-- `At(key)`: returns the stored value on a hit and throws
`std::out_of_range` (modelled as `none`) on a miss. -/
def At (m : ConcurrentHashMap K V) (key : K) : Option V :=
  match FindInList m (m.hasher key % m.capacity) key with
  | some p => some p.2
  | none => none

/-- `Size()`: a plain read of `size_`. -/
def Size (m : ConcurrentHashMap K V) : Nat :=
  m.size

/-- All entries of the container, in storage order (concatenation of the
bucket chains). -/
def entries (m : ConcurrentHashMap K V) : List (K × V) :=
  m.data.flatten

/-- The structural invariant every quiescent reachable state satisfies:
positive capacity, storage length equal to capacity, every entry sitting in
the bucket selected by its hash, pairwise-distinct keys, and the `size_`
counter equal to the number of stored entries. -/
structure WF (m : ConcurrentHashMap K V) : Prop where
  cap_pos : 0 < m.capacity
  len_eq : m.data.length = m.capacity
  buckets_ok : ∀ i : Nat, ∀ p ∈ bucket m i, m.hasher p.1 % m.capacity = i
  keys_nodup : ((entries m).map Prod.fst).Nodup
  size_eq : m.size = (entries m).length

/-- The state-mutating public operations, for reasoning about operation
sequences. -/
inductive Op (K V : Type) where
  | ins (k : K) (v : V)
  | del (k : K)
  | clr
  deriving DecidableEq

/-- Effect of one mutating operation on the state. -/
def applyOp (m : ConcurrentHashMap K V) : Op K V → ConcurrentHashMap K V
  | Op.ins k v => (Insert m k v).1
  | Op.del k => (Erase m k).1
  | Op.clr => Clear m

/-- Effect of a sequence of mutating operations. -/
def applyOps (m : ConcurrentHashMap K V) (ops : List (Op K V)) :
    ConcurrentHashMap K V :=
  ops.foldl applyOp m

/-- Run a sequence of operations while counting successful inserts and
successful erases: returns the final state, the number of inserts that
returned `true`, and the number of erases that returned `true`. -/
def runStats (m : ConcurrentHashMap K V) :
    List (Op K V) → ConcurrentHashMap K V × Nat × Nat
  | [] => (m, 0, 0)
  | Op.ins k v :: rest =>
      let r := Insert m k v
      let s := runStats r.1 rest
      (s.1, (if r.2 then s.2.1 + 1 else s.2.1), s.2.2)
  | Op.del k :: rest =>
      let r := Erase m k
      let s := runStats r.1 rest
      (s.1, s.2.1, (if r.2 then s.2.2 + 1 else s.2.2))
  | Op.clr :: rest =>
      runStats (Clear m) rest

/-- Insert a list of key/value pairs left to right. -/
def insertAll (m : ConcurrentHashMap K V) (l : List (K × V)) :
    ConcurrentHashMap K V :=
  l.foldl (fun m p => (Insert m p.1 p.2).1) m

/-- States reachable from a freshly constructed container by the mutating
public operations. -/
inductive Reachable : ConcurrentHashMap K V → Prop where
  | init (hasher : K → Nat) : Reachable (init hasher)
  | insert {m : ConcurrentHashMap K V} (k : K) (v : V) :
      Reachable m → Reachable (Insert m k v).1
  | erase {m : ConcurrentHashMap K V} (k : K) :
      Reachable m → Reachable (Erase m k).1
  | clear {m : ConcurrentHashMap K V} :
      Reachable m → Reachable (Clear m)

/-! ### Basic list facts about the bucket array -/

theorem getD_replicate_nil {α : Type _} (n i : Nat) :
    (List.replicate n ([] : List α)).getD i [] = [] := by
  induction n generalizing i with
  | zero => cases i <;> rfl
  | succ n ih =>
    cases i with
    | zero => rfl
    | succ j => simp [List.replicate_succ, ih j]

theorem flatten_replicate_nil {α : Type _} (n : Nat) :
    (List.replicate n ([] : List α)).flatten = [] := by
  induction n with
  | zero => rfl
  | succ n ih => simp [List.replicate_succ, ih]

/-- Decomposition of the flattened storage around bucket `i`: the flattening
splits as `pre ++ bucket i ++ post`, replacing bucket `i` replaces exactly
the middle part, and every element of `pre`/`post` lives in a bucket with a
different index. -/
theorem flatten_set_decomp {α : Type _} (d : List (List α)) (i : Nat)
    (h : i < d.length) :
    ∃ pre post : List α,
      d.flatten = pre ++ d.getD i [] ++ post ∧
      (∀ b, (d.set i b).flatten = pre ++ b ++ post) ∧
      (∀ a, a ∈ pre ∨ a ∈ post → ∃ j, j ≠ i ∧ a ∈ d.getD j []) := by
  induction d generalizing i with
  | nil => simp at h
  | cons x t ih =>
    cases i with
    | zero =>
      refine ⟨[], t.flatten, by simp, fun b => by simp, ?_⟩
      intro a ha
      rcases ha with ha | ha
      · simp at ha
      · rcases List.mem_flatten.1 ha with ⟨l, hl, hal⟩
        rcases List.mem_iff_getElem.1 hl with ⟨j, hj, rfl⟩
        refine ⟨j + 1, by omega, ?_⟩
        simpa [List.getD_eq_getElem?_getD, List.getElem?_eq_getElem hj]
          using hal
    | succ j =>
      have hj : j < t.length := by simpa using h
      obtain ⟨pre, post, h1, h2, h3⟩ := ih j hj
      refine ⟨x ++ pre, post, ?_, fun b => ?_, ?_⟩
      · simp [h1]
      · simp [h2 b]
      · intro a ha
        have split : a ∈ x ∨ (a ∈ pre ∨ a ∈ post) := by
          rcases ha with ha | ha
          · rcases List.mem_append.1 ha with h' | h'
            · exact Or.inl h'
            · exact Or.inr (Or.inl h')
          · exact Or.inr (Or.inr ha)
        rcases split with h' | h'
        · exact ⟨0, by omega, by simpa using h'⟩
        · obtain ⟨j', hj', hmem⟩ := h3 a h'
          exact ⟨j' + 1, by omega, by simpa using hmem⟩

/-- With pairwise-distinct keys, two stored entries with the same key are the
same entry. -/
theorem nodup_keys_unique {l : List (K × V)}
    (hn : (l.map Prod.fst).Nodup) {p q : K × V}
    (hp : p ∈ l) (hq : q ∈ l) (hk : p.1 = q.1) : p = q := by
  induction l with
  | nil => simp at hp
  | cons x t ih =>
    rw [List.map_cons, List.nodup_cons] at hn
    have hn' := hn
    rcases List.mem_cons.1 hp with rfl | hp' <;>
      rcases List.mem_cons.1 hq with rfl | hq'
    · rfl
    · exact absurd (hk ▸ List.mem_map_of_mem Prod.fst hq') hn'.1
    · exact absurd (hk ▸ List.mem_map_of_mem Prod.fst hp') hn'.1
    · exact ih hn'.2 hp' hq'

/-- A freshly constructed container satisfies the invariant. -/
theorem wf_init (hasher : K → Nat) : WF (init (V := V) hasher) := by
  refine ⟨by simp [init, kMutexesCount], by simp [init, kMutexesCount], ?_, ?_, ?_⟩
  · intro i p hp
    simp [bucket, init, getD_replicate_nil] at hp
  · simp [entries, init, flatten_replicate_nil]
  · simp [entries, init, flatten_replicate_nil]

theorem getD_set_self {α : Type _} (d : List (List α)) (i : Nat) (b : List α)
    (h : i < d.length) : (d.set i b).getD i [] = b := by
  simp [List.getD_eq_getElem?_getD, List.getElem?_set_self h]

theorem getD_set_ne {α : Type _} (d : List (List α)) (i j : Nat) (b : List α)
    (h : i ≠ j) : (d.set i b).getD j [] = d.getD j [] := by
  simp [List.getD_eq_getElem?_getD, List.getElem?_set_ne h]

/-! ### The redistribution fold of `Rehash`

`Rehash` pours every old entry into a fresh bucket array with the fold
`fun d p => d.set (g p) (d.getD (g p) [] ++ [p])` where `g` is the new
bucket-index map.  The next three lemmas characterise that fold. -/

theorem spreadFold_length {α : Type _} (g : α → Nat) (l : List α)
    (d0 : List (List α)) :
    (l.foldl (fun d p => d.set (g p) (d.getD (g p) [] ++ [p])) d0).length =
      d0.length := by
  induction l generalizing d0 with
  | nil => rfl
  | cons p l ih => rw [List.foldl_cons, ih, List.length_set]

theorem spreadFold_flatten_perm {α : Type _} (g : α → Nat) (l : List α)
    (d0 : List (List α)) (hg : ∀ p ∈ l, g p < d0.length) :
    (l.foldl (fun d p => d.set (g p) (d.getD (g p) [] ++ [p])) d0).flatten ~
      d0.flatten ++ l := by
  induction l generalizing d0 with
  | nil => simp
  | cons p l ih =>
    have hp : g p < d0.length := hg p (List.mem_cons_self p l)
    obtain ⟨pre, post, hsplit, hset, -⟩ := flatten_set_decomp d0 (g p) hp
    have hstep :
        (d0.set (g p) (d0.getD (g p) [] ++ [p])).flatten ~
          d0.flatten ++ [p] := by
      rw [hset, hsplit]
      calc pre ++ (d0.getD (g p) [] ++ [p]) ++ post
          = (pre ++ d0.getD (g p) []) ++ ([p] ++ post) := by simp
        _ ~ (pre ++ d0.getD (g p) []) ++ (post ++ [p]) :=
            List.Perm.append_left _ List.perm_append_comm
        _ = pre ++ d0.getD (g p) [] ++ post ++ [p] := by simp
    have hrest := ih (d0.set (g p) (d0.getD (g p) [] ++ [p]))
      (fun q hq => by simpa using hg q (List.mem_cons_of_mem p hq))
    calc (((p :: l).foldl
            (fun d q => d.set (g q) (d.getD (g q) [] ++ [q])) d0)).flatten
        ~ (d0.set (g p) (d0.getD (g p) [] ++ [p])).flatten ++ l := hrest
      _ ~ (d0.flatten ++ [p]) ++ l := hstep.append_right l
      _ = d0.flatten ++ (p :: l) := by simp

theorem spreadFold_buckets {α : Type _} (g : α → Nat) (l : List α)
    (d0 : List (List α)) (h0 : ∀ i, ∀ p ∈ d0.getD i [], g p = i) :
    ∀ i, ∀ p ∈ (l.foldl
      (fun d q => d.set (g q) (d.getD (g q) [] ++ [q])) d0).getD i [],
      g p = i := by
  induction l generalizing d0 with
  | nil => exact h0
  | cons p l ih =>
    refine ih (d0.set (g p) (d0.getD (g p) [] ++ [p])) ?_
    intro i q hq
    by_cases hlt : g p < d0.length
    · by_cases hip : g p = i
      · subst hip
        rw [getD_set_self d0 (g p) _ hlt] at hq
        rcases List.mem_append.1 hq with h' | h'
        · exact h0 _ q h'
        · have hqp : q = p := by simpa using h'
          rw [hqp]
      · rw [getD_set_ne d0 (g p) i _ hip] at hq
        exact h0 i q hq
    · rw [List.set_eq_of_length_le (by omega)] at hq
      exact h0 i q hq

/-! ### Membership bridge between buckets and the entry list -/

theorem bucket_subset_entries (m : ConcurrentHashMap K V) (i : Nat) :
    ∀ p ∈ bucket m i, p ∈ entries m := by
  intro p hp
  by_cases h : i < m.data.length
  · have : bucket m i ∈ m.data := by
      rw [bucket, List.getD_eq_getElem?_getD, List.getElem?_eq_getElem h]
      exact List.getElem_mem h
    exact List.mem_flatten_of_mem this hp
  · rw [bucket, List.getD_eq_getElem?_getD, List.getElem?_eq_none (by omega)]
      at hp
    simp at hp

theorem mem_bucket_of_mem_entries {m : ConcurrentHashMap K V}
    (hw : WF m) {p : K × V} (hp : p ∈ entries m) :
    p ∈ bucket m (m.hasher p.1 % m.capacity) := by
  rcases List.mem_flatten.1 hp with ⟨l, hl, hpl⟩
  rcases List.mem_iff_getElem.1 hl with ⟨j, hj, rfl⟩
  have hbj : p ∈ bucket m j := by
    rw [bucket, List.getD_eq_getElem?_getD, List.getElem?_eq_getElem hj]
    exact hpl
  rw [hw.buckets_ok j p hbj]
  exact hbj

theorem findInList_eq_some {m : ConcurrentHashMap K V} (hw : WF m)
    {k : K} {p : K × V}
    (h : FindInList m (m.hasher k % m.capacity) k = some p) :
    p.1 = k ∧ p ∈ entries m := by
  have h' : (bucket m (m.hasher k % m.capacity)).find?
      (fun q => decide (q.1 = k)) = some p := h
  refine ⟨of_decide_eq_true (by simpa using List.find?_some h'), ?_⟩
  exact bucket_subset_entries m _ p (List.mem_of_find?_eq_some h')

theorem mem_findInList {m : ConcurrentHashMap K V} (hw : WF m)
    {k : K} {v : V} (hmem : (k, v) ∈ entries m) :
    FindInList m (m.hasher k % m.capacity) k = some (k, v) := by
  have hb : (k, v) ∈ bucket m (m.hasher k % m.capacity) :=
    mem_bucket_of_mem_entries hw hmem
  rcases hq : FindInList m (m.hasher k % m.capacity) k with - | q
  · have hq' : (bucket m (m.hasher k % m.capacity)).find?
        (fun q => decide (q.1 = k)) = none := hq
    have hcontra := List.find?_eq_none.1 hq' (k, v) hb
    simp at hcontra
  · obtain ⟨hk, hqe⟩ := findInList_eq_some hw hq
    have hqkv : q = (k, v) := nodup_keys_unique hw.keys_nodup hqe hmem hk
    rw [hqkv]

theorem findInList_eq_none {m : ConcurrentHashMap K V} (hw : WF m) {k : K} :
    FindInList m (m.hasher k % m.capacity) k = none ↔
      ∀ p ∈ entries m, p.1 ≠ k := by
  constructor
  · intro h p hp hk
    have : (k, p.2) ∈ entries m := by
      have : p = (k, p.2) := by
        rw [← hk]
      rw [← this]
      exact hp
    rw [mem_findInList hw this] at h
    exact Option.noConfusion h
  · intro h
    rcases hq : FindInList m (m.hasher k % m.capacity) k with - | q
    · rfl
    · obtain ⟨hk, hqe⟩ := findInList_eq_some hw hq
      exact absurd hk (h q hqe)

/-! ### Rehash: capacity ×4, entries preserved up to permutation -/

theorem rehash_capacity (m : ConcurrentHashMap K V) :
    (Rehash m).capacity = m.capacity * 4 := rfl

theorem rehash_size (m : ConcurrentHashMap K V) :
    (Rehash m).size = m.size := rfl

theorem rehash_hasher (m : ConcurrentHashMap K V) :
    (Rehash m).hasher = m.hasher := rfl

theorem rehash_entries_perm {m : ConcurrentHashMap K V}
    (hcap : 0 < m.capacity) :
    List.Perm (entries (Rehash m)) (entries m) := by
  have hg : ∀ p ∈ m.data.flatten, m.hasher p.1 % (m.capacity * 4) <
      (List.replicate (m.capacity * 4) ([] : List (K × V))).length := by
    intro p hp
    rw [List.length_replicate]
    exact Nat.mod_lt _ (by omega)
  have h := spreadFold_flatten_perm
    (fun p : K × V => m.hasher p.1 % (m.capacity * 4))
    m.data.flatten (List.replicate (m.capacity * 4) []) hg
  rw [flatten_replicate_nil, List.nil_append] at h
  exact h

theorem rehash_wf {m : ConcurrentHashMap K V} (hw : WF m) :
    WF (Rehash m) := by
  have hperm := rehash_entries_perm (m := m) hw.cap_pos
  refine ⟨?_, ?_, ?_, ?_, ?_⟩
  · have := hw.cap_pos
    rw [rehash_capacity]
    omega
  · have h := spreadFold_length
      (fun p : K × V => m.hasher p.1 % (m.capacity * 4))
      m.data.flatten (List.replicate (m.capacity * 4) [])
    rw [List.length_replicate] at h
    exact h
  · have h := spreadFold_buckets
      (fun p : K × V => m.hasher p.1 % (m.capacity * 4))
      m.data.flatten (List.replicate (m.capacity * 4) [])
      (fun i p hp => by rw [getD_replicate_nil] at hp; simp at hp)
    intro i p hp
    exact h i p hp
  · exact (hperm.symm.map Prod.fst).nodup hw.keys_nodup
  · rw [rehash_size, hw.size_eq]
    exact hperm.length_eq.symm

/-! ### The locked insert critical section -/

theorem insertLocked_hasher (m : ConcurrentHashMap K V) (k : K) (v : V) :
    (insertLocked m k v).1.hasher = m.hasher := by
  rcases h : FindInList m (m.hasher k % m.capacity) k with - | p <;>
    simp [insertLocked, h]

theorem insertLocked_capacity (m : ConcurrentHashMap K V) (k : K) (v : V) :
    (insertLocked m k v).1.capacity = m.capacity := by
  rcases h : FindInList m (m.hasher k % m.capacity) k with - | p <;>
    simp [insertLocked, h]

theorem insertLocked_present {m : ConcurrentHashMap K V} (hw : WF m)
    {k : K} (v : V) (hp : ∃ p ∈ entries m, p.1 = k) :
    insertLocked m k v = (m, false) := by
  obtain ⟨p, hpe, hpk⟩ := hp
  have hmem : (k, p.2) ∈ entries m := by
    have hpeq : p = (k, p.2) := by rw [← hpk]
    rw [← hpeq]
    exact hpe
  have hfind := mem_findInList hw hmem
  simp [insertLocked, hfind]

theorem insertLocked_absent {m : ConcurrentHashMap K V} (hw : WF m)
    {k : K} (v : V) (ha : ∀ p ∈ entries m, p.1 ≠ k) :
    (insertLocked m k v).2 = true ∧
    WF (insertLocked m k v).1 ∧
    List.Perm (entries (insertLocked m k v).1) ((k, v) :: entries m) ∧
    (insertLocked m k v).1.size = m.size + 1 := by
  have hfind := (findInList_eq_none hw).2 ha
  have hres : insertLocked m k v =
      ({ m with
          data := m.data.set (m.hasher k % m.capacity)
            (bucket m (m.hasher k % m.capacity) ++ [(k, v)])
          size := m.size + 1 }, true) := by
    simp [insertLocked, hfind]
  have hlt : m.hasher k % m.capacity < m.data.length := by
    rw [hw.len_eq]
    exact Nat.mod_lt _ hw.cap_pos
  obtain ⟨pre, post, hsplit0, hset, hother0⟩ :=
    flatten_set_decomp m.data (m.hasher k % m.capacity) hlt
  have hsplit : m.data.flatten =
      pre ++ bucket m (m.hasher k % m.capacity) ++ post := hsplit0
  have hperm : List.Perm
      (m.data.set (m.hasher k % m.capacity)
        (bucket m (m.hasher k % m.capacity) ++ [(k, v)])).flatten
      ((k, v) :: m.data.flatten) := by
    rw [hset, hsplit]
    calc pre ++ (bucket m (m.hasher k % m.capacity) ++ [(k, v)]) ++ post
        = (pre ++ bucket m (m.hasher k % m.capacity)) ++ (k, v) :: post := by
          simp
      _ ~ (k, v) :: ((pre ++ bucket m (m.hasher k % m.capacity)) ++ post) :=
          List.perm_middle
      _ = (k, v) :: (pre ++ bucket m (m.hasher k % m.capacity) ++ post) := by
          simp
  have hknotin : k ∉ (entries m).map Prod.fst := by
    intro hk
    rcases List.mem_map.1 hk with ⟨p, hpe, hpk⟩
    exact ha p hpe hpk
  rw [hres]
  refine ⟨rfl, ?_, hperm, rfl⟩
  refine ⟨hw.cap_pos, by simpa using hw.len_eq, ?_, ?_, ?_⟩
  · intro i p hp
    by_cases hi : m.hasher k % m.capacity = i
    · subst hi
      rw [show bucket
            ({ m with
                data := m.data.set (m.hasher k % m.capacity)
                  (bucket m (m.hasher k % m.capacity) ++ [(k, v)])
                size := m.size + 1 } : ConcurrentHashMap K V)
            (m.hasher k % m.capacity) =
          (m.data.set (m.hasher k % m.capacity)
            (bucket m (m.hasher k % m.capacity) ++ [(k, v)])).getD
            (m.hasher k % m.capacity) [] from rfl,
        getD_set_self _ _ _ hlt] at hp
      rcases List.mem_append.1 hp with h' | h'
      · exact hw.buckets_ok _ p h'
      · have : p = (k, v) := by simpa using h'
        rw [this]
    · rw [show bucket
            ({ m with
                data := m.data.set (m.hasher k % m.capacity)
                  (bucket m (m.hasher k % m.capacity) ++ [(k, v)])
                size := m.size + 1 } : ConcurrentHashMap K V) i =
          (m.data.set (m.hasher k % m.capacity)
            (bucket m (m.hasher k % m.capacity) ++ [(k, v)])).getD i []
          from rfl,
        getD_set_ne _ _ _ _ hi] at hp
      exact hw.buckets_ok i p hp
  · refine ((hperm.map Prod.fst).symm).nodup ?_
    rw [List.map_cons]
    exact List.nodup_cons.2 ⟨hknotin, hw.keys_nodup⟩
  · have hlen := hperm.length_eq
    rw [List.length_cons] at hlen
    rw [show (entries
        ({ m with
            data := m.data.set (m.hasher k % m.capacity)
              (bucket m (m.hasher k % m.capacity) ++ [(k, v)])
            size := m.size + 1 } : ConcurrentHashMap K V)) =
        (m.data.set (m.hasher k % m.capacity)
          (bucket m (m.hasher k % m.capacity) ++ [(k, v)])).flatten from rfl]
    rw [hlen]
    have hs : m.size = m.data.flatten.length := hw.size_eq
    show m.size + 1 = m.data.flatten.length + 1
    rw [hs]

/-! ### Insert -/

theorem insert_eq_no_growth {m : ConcurrentHashMap K V} {k : K} {v : V}
    (h : loadFactorReached m = false) :
    Insert m k v = insertLocked m k v := by
  simp [Insert, h]

theorem insert_eq_growth {m : ConcurrentHashMap K V} {k : K} {v : V}
    (h : loadFactorReached m = true) :
    Insert m k v = insertLocked (Rehash m) k v := by
  simp [Insert, h]

/-- The state the critical section of `Insert` runs on: the original state
when the load factor is below the threshold, the rehashed state otherwise.
Either way it is well-formed, has the same entries up to permutation, the
same size and hasher, and its capacity grows exactly when the threshold was
reached. -/
theorem insert_prestate {m : ConcurrentHashMap K V} (hw : WF m)
    (k : K) (v : V) :
    ∃ m1 : ConcurrentHashMap K V,
      Insert m k v = insertLocked m1 k v ∧ WF m1 ∧
      List.Perm (entries m1) (entries m) ∧
      m1.size = m.size ∧ m1.hasher = m.hasher ∧
      m1.capacity =
        (if loadFactorReached m then m.capacity * 4 else m.capacity) ∧
      (loadFactorReached m = false → m1 = m) := by
  by_cases h : loadFactorReached m = true
  · refine ⟨Rehash m, insert_eq_growth h, rehash_wf hw,
      rehash_entries_perm hw.cap_pos, rfl, rfl, ?_, ?_⟩
    · rw [if_pos h, rehash_capacity]
    · intro hc
      rw [hc] at h
      exact Bool.noConfusion h
  · have h' : loadFactorReached m = false := by
      simpa using h
    exact ⟨m, insert_eq_no_growth h', hw, List.Perm.refl _, rfl, rfl,
      by rw [if_neg (by simp [h'])], fun _ => rfl⟩

theorem insert_success_iff {m : ConcurrentHashMap K V} (hw : WF m)
    (k : K) (v : V) :
    (Insert m k v).2 = true ↔ ∀ p ∈ entries m, p.1 ≠ k := by
  obtain ⟨m1, heq, hw1, hperm, -, -, -, -⟩ := insert_prestate hw k v
  rw [heq]
  constructor
  · intro hs p hp hk
    have hp1 : p ∈ entries m1 := hperm.mem_iff.2 hp
    rw [insertLocked_present hw1 v ⟨p, hp1, hk⟩] at hs
    exact Bool.noConfusion hs
  · intro ha
    exact (insertLocked_absent hw1 v
      (fun p hp => ha p (hperm.mem_iff.1 hp))).1

theorem insert_spec {m : ConcurrentHashMap K V} (hw : WF m)
    (k : K) (v : V) :
    WF (Insert m k v).1 ∧
    List.Perm (entries (Insert m k v).1)
      (if (Insert m k v).2 = true then (k, v) :: entries m
       else entries m) ∧
    (Insert m k v).1.size =
      (if (Insert m k v).2 = true then m.size + 1 else m.size) := by
  obtain ⟨m1, heq, hw1, hperm, hsz, -, -, -⟩ := insert_prestate hw k v
  rw [heq]
  by_cases hpres : ∀ p ∈ entries m1, p.1 ≠ k
  · obtain ⟨h2, hwf, hper, hsz1⟩ := insertLocked_absent hw1 v hpres
    rw [h2, if_pos rfl]
    exact ⟨hwf, hper.trans (List.Perm.cons _ hperm),
      by simp [hsz1, hsz]⟩
  · push_neg at hpres
    rw [insertLocked_present hw1 v hpres]
    simp only [Bool.false_eq_true, if_neg, ite_false]
    exact ⟨hw1, hperm, hsz⟩

theorem insert_hasher (m : ConcurrentHashMap K V) (k : K) (v : V) :
    (Insert m k v).1.hasher = m.hasher := by
  by_cases h : loadFactorReached m = true
  · rw [insert_eq_growth h, insertLocked_hasher, rehash_hasher]
  · rw [insert_eq_no_growth (by simpa using h), insertLocked_hasher]

theorem insert_capacity (m : ConcurrentHashMap K V) (k : K) (v : V) :
    (Insert m k v).1.capacity =
      (if loadFactorReached m then m.capacity * 4 else m.capacity) := by
  by_cases h : loadFactorReached m = true
  · rw [insert_eq_growth h, insertLocked_capacity, rehash_capacity, if_pos h]
  · rw [insert_eq_no_growth (by simpa using h), insertLocked_capacity,
      if_neg (by simpa using h)]

/-! ### Erase -/

theorem erase_hasher (m : ConcurrentHashMap K V) (k : K) :
    (Erase m k).1.hasher = m.hasher := by
  rcases h : FindInList m (m.hasher k % m.capacity) k with - | p <;>
    simp [Erase, h]

theorem erase_capacity (m : ConcurrentHashMap K V) (k : K) :
    (Erase m k).1.capacity = m.capacity := by
  rcases h : FindInList m (m.hasher k % m.capacity) k with - | p <;>
    simp [Erase, h]

theorem erase_data_length (m : ConcurrentHashMap K V) (k : K) :
    (Erase m k).1.data.length = m.data.length := by
  rcases h : FindInList m (m.hasher k % m.capacity) k with - | p <;>
    simp [Erase, h]

theorem erase_absent {m : ConcurrentHashMap K V} (hw : WF m) {k : K}
    (ha : ∀ p ∈ entries m, p.1 ≠ k) :
    Erase m k = (m, false) := by
  have hfind := (findInList_eq_none hw).2 ha
  simp [Erase, hfind]

theorem erase_present {m : ConcurrentHashMap K V} (hw : WF m) {k : K}
    (hp : ∃ p ∈ entries m, p.1 = k) :
    (Erase m k).2 = true ∧
    entries (Erase m k).1 = (entries m).eraseP (fun p => decide (p.1 = k)) ∧
    WF (Erase m k).1 ∧
    (Erase m k).1.size = m.size - 1 ∧ 1 ≤ m.size ∧
    (∀ q ∈ entries (Erase m k).1, q.1 ≠ k) := by
  obtain ⟨p0, hp0e, hp0k⟩ := hp
  have hmem : (k, p0.2) ∈ entries m := by
    have hpeq : p0 = (k, p0.2) := by rw [← hp0k]
    rw [← hpeq]
    exact hp0e
  have hfind := mem_findInList hw hmem
  have hres : Erase m k =
      ({ m with
          data := m.data.set (m.hasher k % m.capacity)
            ((bucket m (m.hasher k % m.capacity)).eraseP
              (fun p => decide (p.1 = k)))
          size := m.size - 1 }, true) := by
    simp [Erase, hfind]
  have hlt : m.hasher k % m.capacity < m.data.length := by
    rw [hw.len_eq]
    exact Nat.mod_lt _ hw.cap_pos
  obtain ⟨pre, post, hsplit0, hset, hother0⟩ :=
    flatten_set_decomp m.data (m.hasher k % m.capacity) hlt
  have hsplit : m.data.flatten =
      pre ++ bucket m (m.hasher k % m.capacity) ++ post := hsplit0
  have hnok : ∀ a : K × V, a ∈ pre ∨ a ∈ post → a.1 ≠ k := by
    intro a ha hk
    obtain ⟨j, hj, hmemj⟩ := hother0 a ha
    have hbj : a ∈ bucket m j := hmemj
    have := hw.buckets_ok j a hbj
    rw [hk] at this
    exact hj this.symm
  have hbk : (k, p0.2) ∈ bucket m (m.hasher k % m.capacity) :=
    mem_bucket_of_mem_entries hw hmem
  have hpa : (fun q : K × V => decide (q.1 = k)) (k, p0.2) = true := by simp
  have hrhs : (m.data.flatten).eraseP (fun p => decide (p.1 = k)) =
      pre ++ (bucket m (m.hasher k % m.capacity)).eraseP
        (fun p => decide (p.1 = k)) ++ post := by
    rw [hsplit, List.append_assoc,
      List.eraseP_append_right _
        (fun b hb => by simpa using hnok b (Or.inl hb)),
      List.eraseP_append_left (p := fun q : K × V => decide (q.1 = k))
        hpa post hbk,
      List.append_assoc]
  have heq : (m.data.set (m.hasher k % m.capacity)
        ((bucket m (m.hasher k % m.capacity)).eraseP
          (fun p => decide (p.1 = k)))).flatten =
      (m.data.flatten).eraseP (fun p => decide (p.1 = k)) := by
    rw [hset, hrhs]
  have hsz : m.size = (entries m).length := hw.size_eq
  have hlen1 := List.length_eraseP_add_one (p := fun p => decide (p.1 = k))
    hmem (by simp)
  obtain ⟨a, L1, L2, hL1, hpa, hentsplit, herased⟩ :=
    List.exists_of_eraseP (p := fun p => decide (p.1 = k)) hmem (by simp)
  have hak : a.1 = k := by simpa using hpa
  have hnotin : ∀ q ∈ (entries m).eraseP (fun p => decide (p.1 = k)),
      q.1 ≠ k := by
    intro q hq hqk
    have hnd := hw.keys_nodup
    rw [hentsplit, List.map_append, List.map_cons] at hnd
    have hmid := List.nodup_cons.1 (List.nodup_middle.1 hnd)
    rw [herased] at hq
    have : q.1 ∈ (L1.map Prod.fst) ++ (L2.map Prod.fst) := by
      rw [← List.map_append]
      exact List.mem_map_of_mem Prod.fst hq
    rw [hqk, ← hak] at this
    exact hmid.1 this
  rw [hres]
  refine ⟨rfl, heq, ?_, rfl, by omega, fun q hq => hnotin q (heq ▸ hq)⟩
  refine ⟨hw.cap_pos, by simpa using hw.len_eq, ?_, ?_, ?_⟩
  · intro i q hq
    by_cases hi : m.hasher k % m.capacity = i
    · subst hi
      rw [show bucket
            ({ m with
                data := m.data.set (m.hasher k % m.capacity)
                  ((bucket m (m.hasher k % m.capacity)).eraseP
                    (fun p => decide (p.1 = k)))
                size := m.size - 1 } : ConcurrentHashMap K V)
            (m.hasher k % m.capacity) =
          (m.data.set (m.hasher k % m.capacity)
            ((bucket m (m.hasher k % m.capacity)).eraseP
              (fun p => decide (p.1 = k)))).getD
            (m.hasher k % m.capacity) [] from rfl,
        getD_set_self _ _ _ hlt] at hq
      exact hw.buckets_ok _ q ((List.eraseP_sublist _).subset hq)
    · rw [show bucket
            ({ m with
                data := m.data.set (m.hasher k % m.capacity)
                  ((bucket m (m.hasher k % m.capacity)).eraseP
                    (fun p => decide (p.1 = k)))
                size := m.size - 1 } : ConcurrentHashMap K V) i =
          (m.data.set (m.hasher k % m.capacity)
            ((bucket m (m.hasher k % m.capacity)).eraseP
              (fun p => decide (p.1 = k)))).getD i [] from rfl,
        getD_set_ne _ _ _ _ hi] at hq
      exact hw.buckets_ok i q hq
  · have hsub : ((m.data.set (m.hasher k % m.capacity)
        ((bucket m (m.hasher k % m.capacity)).eraseP
          (fun p => decide (p.1 = k)))).flatten).map Prod.fst <+
        (entries m).map Prod.fst := by
      rw [heq]
      exact ((List.eraseP_sublist _).map Prod.fst)
    exact hw.keys_nodup.sublist hsub
  · show m.size - 1 = ((m.data.set (m.hasher k % m.capacity)
      ((bucket m (m.hasher k % m.capacity)).eraseP
        (fun p => decide (p.1 = k)))).flatten).length
    rw [heq]
    have hlen1' : (List.eraseP (fun p => decide (p.1 = k))
        m.data.flatten).length + 1 = m.data.flatten.length := hlen1
    have hsz' : m.size = m.data.flatten.length := hsz
    omega

/-! ### Clear -/

theorem clear_capacity (m : ConcurrentHashMap K V) :
    (Clear m).capacity = kMutexesCount := rfl

theorem clear_size (m : ConcurrentHashMap K V) : (Clear m).size = 0 := rfl

theorem clear_entries (m : ConcurrentHashMap K V) : entries (Clear m) = [] :=
  flatten_replicate_nil kMutexesCount

theorem clear_wf (m : ConcurrentHashMap K V) : WF (Clear m) := by
  refine ⟨by simp [Clear, kMutexesCount], by simp [Clear, kMutexesCount],
    ?_, ?_, ?_⟩
  · intro i p hp
    have : bucket (Clear m) i = [] := getD_replicate_nil kMutexesCount i
    rw [this] at hp
    simp at hp
  · rw [clear_entries]
    exact List.nodup_nil
  · rw [clear_entries, clear_size]
    rfl

theorem findInList_clear (m : ConcurrentHashMap K V) (id : Nat) (k : K) :
    FindInList (Clear m) id k = none := by
  show ((Clear m).data.getD id []).find? (fun p => decide (p.1 = k)) = none
  rw [show (Clear m).data = List.replicate kMutexesCount [] from rfl,
    getD_replicate_nil]
  rfl

/-! ### Derived facts about whole operations -/

theorem erase_wf {m : ConcurrentHashMap K V} (hw : WF m) (k : K) :
    WF (Erase m k).1 := by
  by_cases hp : ∃ p ∈ entries m, p.1 = k
  · exact (erase_present hw hp).2.2.1
  · push_neg at hp
    rw [erase_absent hw hp]
    exact hw

theorem erase_size {m : ConcurrentHashMap K V} (hw : WF m) (k : K) :
    (Erase m k).1.size =
      (if (Erase m k).2 = true then m.size - 1 else m.size) := by
  by_cases hp : ∃ p ∈ entries m, p.1 = k
  · obtain ⟨h2, -, -, hs, -, -⟩ := erase_present hw hp
    rw [hs, h2]
    simp
  · push_neg at hp
    rw [erase_absent hw hp]
    simp

theorem wf_reachable {m : ConcurrentHashMap K V} (hr : Reachable m) :
    WF m := by
  induction hr with
  | init h => exact wf_init h
  | insert k v hr ih => exact (insert_spec ih k v).1
  | erase k hr ih => exact erase_wf ih k
  | clear hr ih => exact clear_wf _

theorem capacity_form {m : ConcurrentHashMap K V} (hr : Reachable m) :
    ∃ n : Nat, m.capacity = kMutexesCount * 4 ^ n := by
  induction hr with
  | init h => exact ⟨0, by simp [CHMap.init]⟩
  | @insert m0 k v hr ih =>
      obtain ⟨n, hn⟩ := ih
      rw [insert_capacity]
      by_cases h : loadFactorReached m0 = true
      · rw [if_pos h, hn]
        exact ⟨n + 1, by ring⟩
      · rw [if_neg h]
        exact ⟨n, hn⟩
  | erase k hr ih =>
      rw [erase_capacity]
      exact ih
  | clear hr ih => exact ⟨0, by simp [Clear]⟩

/-! ### Operation sequences -/

/-- A stored entry survives any sequence of operations that never erases its
key and never clears the container, and well-formedness is maintained. -/
theorem applyOps_preserves {m : ConcurrentHashMap K V} {k : K} {v : V}
    (hw : WF m) (hmem : (k, v) ∈ entries m) (ops : List (Op K V))
    (hops : ∀ op ∈ ops, op ≠ Op.del k ∧ op ≠ Op.clr) :
    WF (applyOps m ops) ∧ (k, v) ∈ entries (applyOps m ops) := by
  induction ops generalizing m with
  | nil => exact ⟨hw, hmem⟩
  | cons op rest ih =>
    have hop := hops op (List.mem_cons_self op rest)
    have hrest : ∀ o ∈ rest, o ≠ Op.del k ∧ o ≠ Op.clr :=
      fun o ho => hops o (List.mem_cons_of_mem op ho)
    have hstep : applyOps m (op :: rest) = applyOps (applyOp m op) rest := rfl
    rw [hstep]
    cases op with
    | ins k1 v1 =>
      obtain ⟨hwf, hperm, -⟩ := insert_spec hw k1 v1
      refine ih hwf ?_ hrest
      by_cases h2 : (Insert m k1 v1).2 = true
      · rw [if_pos h2] at hperm
        exact hperm.mem_iff.2 (List.mem_cons_of_mem _ hmem)
      · rw [if_neg h2] at hperm
        exact hperm.mem_iff.2 hmem
    | del k1 =>
      have hk1 : k1 ≠ k := fun h => hop.1 (by rw [h])
      by_cases hp : ∃ p ∈ entries m, p.1 = k1
      · obtain ⟨-, he, hwf, -, -, -⟩ := erase_present hw hp
        refine ih hwf ?_ hrest
        show (k, v) ∈ entries (Erase m k1).1
        rw [he]
        exact (List.mem_eraseP_of_neg (by simp [hk1.symm])).2 hmem
      · push_neg at hp
        have happ : applyOp m (Op.del k1) = m := by
          show (Erase m k1).1 = m
          rw [erase_absent hw hp]
        rw [happ]
        exact ih hw hmem hrest
    | clr => exact absurd rfl hop.2

/-- Inserting fresh, pairwise-distinct keys while the container stays below
the growth threshold: capacity is untouched, every insert succeeds, and the
entries grow accordingly. -/
theorem insertAll_fresh_below {m : ConcurrentHashMap K V} (hw : WF m)
    {l : List (K × V)}
    (hnd : (l.map Prod.fst).Nodup)
    (hfresh : ∀ p ∈ l, ∀ q ∈ entries m, q.1 ≠ p.1)
    (hcap : m.capacity = kMutexesCount)
    (hbound : m.size + l.length ≤ 57) :
    WF (insertAll m l) ∧
    (insertAll m l).capacity = kMutexesCount ∧
    (insertAll m l).size = m.size + l.length ∧
    List.Perm (entries (insertAll m l)) (entries m ++ l) := by
  induction l generalizing m with
  | nil =>
    refine ⟨hw, hcap, by simp [insertAll], ?_⟩
    simp [insertAll]
  | cons p l ih =>
    have hsz : m.size ≤ 56 := by
      have := hbound
      simp [List.length_cons] at this
      omega
    have hl : loadFactorReached m = false := by
      have : ¬(9 * m.capacity ≤ 10 * m.size) := by
        rw [hcap]
        show ¬(9 * 63 ≤ 10 * m.size)
        omega
      simpa [loadFactorReached] using this
    have habs : ∀ q ∈ entries m, q.1 ≠ p.1 :=
      hfresh p (List.mem_cons_self p l)
    have hsucc : (Insert m p.1 p.2).2 = true :=
      (insert_success_iff hw p.1 p.2).2 habs
    obtain ⟨hwf, hperm, hsize⟩ := insert_spec hw p.1 p.2
    rw [if_pos hsucc] at hperm hsize
    have hcap' : (Insert m p.1 p.2).1.capacity = kMutexesCount := by
      rw [insert_capacity, if_neg (by simp [hl]), hcap]
    rw [List.map_cons, List.nodup_cons] at hnd
    have hfresh' : ∀ q ∈ l, ∀ r ∈ entries (Insert m p.1 p.2).1,
        r.1 ≠ q.1 := by
      intro q hq r hr
      have hr' := hperm.mem_iff.1 hr
      rcases List.mem_cons.1 hr' with rfl | hrm
      · intro hq1
        exact hnd.1 (hq1 ▸ List.mem_map_of_mem Prod.fst hq)
      · exact hfresh q (List.mem_cons_of_mem _ hq) r hrm
    have hbound' : (Insert m p.1 p.2).1.size + l.length ≤ 57 := by
      rw [hsize]
      simp [List.length_cons] at hbound
      omega
    obtain ⟨H1, H2, H3, H4⟩ := ih hwf hnd.2 hfresh' hcap' hbound'
    have hstep : insertAll m (p :: l) = insertAll (Insert m p.1 p.2).1 l :=
      rfl
    refine ⟨by rw [hstep]; exact H1, by rw [hstep]; exact H2, ?_, ?_⟩
    · rw [hstep, H3, hsize, List.length_cons]
      omega
    · rw [hstep]
      refine H4.trans ?_
      refine (hperm.append_right l).trans ?_
      have hmid : ((p.1, p.2) :: (entries m ++ l)) =
          ((p.1, p.2) :: entries m) ++ l := rfl
      have : List.Perm ((p.1, p.2) :: (entries m ++ l))
          (entries m ++ (p.1, p.2) :: l) := List.perm_middle.symm
      exact hmid ▸ this

theorem find_of_mem [Inhabited V] {m : ConcurrentHashMap K V} (hw : WF m)
    {k : K} {v : V} (hmem : (k, v) ∈ entries m) :
    Find m k = (true, v) := by
  simp [Find, mem_findInList hw hmem]

/-- Size accounting along a clear-free operation sequence: final size plus
the number of successful erases equals initial size plus the number of
successful inserts. -/
theorem runStats_spec {m : ConcurrentHashMap K V} (hw : WF m)
    {ops : List (Op K V)} (hclr : Op.clr ∉ ops) :
    WF (runStats m ops).1 ∧
    (runStats m ops).1.size + (runStats m ops).2.2 =
      m.size + (runStats m ops).2.1 := by
  induction ops generalizing m with
  | nil => exact ⟨hw, rfl⟩
  | cons op rest ih =>
    have hclr' : Op.clr ∉ rest := fun h => hclr (List.mem_cons_of_mem op h)
    cases op with
    | ins k v =>
      obtain ⟨hwf, -, hsize⟩ := insert_spec hw k v
      obtain ⟨H1, H2⟩ := ih hwf hclr'
      have hunf : runStats m (Op.ins k v :: rest) =
          ((runStats (Insert m k v).1 rest).1,
           (if (Insert m k v).2 then (runStats (Insert m k v).1 rest).2.1 + 1
            else (runStats (Insert m k v).1 rest).2.1),
           (runStats (Insert m k v).1 rest).2.2) := rfl
      rw [hunf]
      refine ⟨H1, ?_⟩
      by_cases h2 : (Insert m k v).2 = true
      · rw [if_pos h2] at hsize
        rw [if_pos h2]
        dsimp only
        omega
      · rw [if_neg h2] at hsize
        rw [if_neg h2]
        dsimp only
        omega
    | del k =>
      have hunf : runStats m (Op.del k :: rest) =
          ((runStats (Erase m k).1 rest).1,
           (runStats (Erase m k).1 rest).2.1,
           (if (Erase m k).2 then (runStats (Erase m k).1 rest).2.2 + 1
            else (runStats (Erase m k).1 rest).2.2)) := rfl
      rw [hunf]
      by_cases hp : ∃ p ∈ entries m, p.1 = k
      · obtain ⟨h2, -, hwf, hs, hone, -⟩ := erase_present hw hp
        obtain ⟨H1, H2⟩ := ih hwf hclr'
        rw [if_pos h2]
        refine ⟨H1, ?_⟩
        rw [hs] at H2
        dsimp only
        omega
      · push_neg at hp
        have habs := erase_absent hw hp
        have h2 : (Erase m k).2 = false := by rw [habs]
        have hst : (Erase m k).1 = m := by rw [habs]
        rw [if_neg (by simp [h2]), hst]
        exact ih hw hclr'
    | clr => exact absurd (List.mem_cons_self _ _) hclr

/-! ### Claim theorems -/

/-- C1: if `Insert m k v` succeeds and the subsequent operations never erase
`k` and never clear the container, `Find k` returns `(true, v)`; moreover any
later `Insert k w` returns `false` and leaves the stored value for `k`
unchanged (the no-overwrite law).  The immediate round trip is the instance
`ops = []`. -/
theorem insert_find_roundtrip_no_overwrite [Inhabited V]
    {m : ConcurrentHashMap K V} (hw : WF m) (k : K) (v : V)
    (ops : List (Op K V))
    (hsucc : (Insert m k v).2 = true)
    (hops : ∀ op ∈ ops, op ≠ Op.del k ∧ op ≠ Op.clr) :
    Find (applyOps (Insert m k v).1 ops) k = (true, v) ∧
    ∀ w : V,
      (Insert (applyOps (Insert m k v).1 ops) k w).2 = false ∧
      Find (Insert (applyOps (Insert m k v).1 ops) k w).1 k = (true, v) := by
  obtain ⟨hwf1, hperm1, -⟩ := insert_spec hw k v
  rw [if_pos hsucc] at hperm1
  have hmem1 : (k, v) ∈ entries (Insert m k v).1 :=
    hperm1.mem_iff.2 (List.mem_cons_self _ _)
  obtain ⟨hwfF, hmemF⟩ := applyOps_preserves hwf1 hmem1 ops hops
  refine ⟨find_of_mem hwfF hmemF, ?_⟩
  intro w
  have hne : (Insert (applyOps (Insert m k v).1 ops) k w).2 ≠ true :=
    fun h => (insert_success_iff hwfF k w).1 h (k, v) hmemF rfl
  have h2 : (Insert (applyOps (Insert m k v).1 ops) k w).2 = false := by
    cases hb : (Insert (applyOps (Insert m k v).1 ops) k w).2
    · rfl
    · exact absurd hb hne
  obtain ⟨hwf2, hperm2, -⟩ := insert_spec hwfF k w
  rw [if_neg (by simp [h2])] at hperm2
  exact ⟨h2, find_of_mem hwf2 (hperm2.mem_iff.2 hmemF)⟩

theorem insert_find_roundtrip_no_overwrite_witness :
    Find (applyOps (Insert (CHMap.init (V := Nat) (fun n : Nat => n)) 5 7).1
        [Op.ins 3 4, Op.del 3]) 5 = (true, 7) ∧
    (Insert (applyOps (Insert (CHMap.init (V := Nat)
        (fun n : Nat => n)) 5 7).1 [Op.ins 3 4, Op.del 3]) 5 9).2 = false := by
  have h := insert_find_roundtrip_no_overwrite
    (wf_init (fun n : Nat => n)) 5 7 [Op.ins 3 4, Op.del 3]
    (by decide) (by decide)
  exact ⟨h.1, (h.2 9).1⟩

/-- C2: every reachable state has capacity `63 * 4 ^ n` (63 at construction,
times 4 per growth, reset by `Clear`), hence the stripe count 63 divides the
capacity and `(h % capacity) % 63 = h % 63` for every hash value — the lock
chosen from `h % 63` owns the bucket `h % capacity`. -/
theorem capacity_stripe_invariant {m : ConcurrentHashMap K V}
    (hr : Reachable m) :
    (∃ n : Nat, m.capacity = kMutexesCount * 4 ^ n) ∧
    kMutexesCount ∣ m.capacity ∧
    (∀ h : Nat, h % m.capacity % kMutexesCount = h % kMutexesCount) ∧
    (Rehash m).capacity = m.capacity * 4 ∧
    (Clear m).capacity = kMutexesCount := by
  obtain ⟨n, hn⟩ := capacity_form hr
  refine ⟨⟨n, hn⟩, ⟨4 ^ n, hn⟩, ?_, rehash_capacity m, rfl⟩
  intro h
  exact Nat.mod_mod_of_dvd h ⟨4 ^ n, hn⟩

theorem capacity_stripe_invariant_witness :
    ∃ n : Nat, (CHMap.init (V := Nat) (fun k : Nat => k)).capacity =
      kMutexesCount * 4 ^ n :=
  (capacity_stripe_invariant
    (Reachable.init (V := Nat) (fun k : Nat => k))).1

/-- C3: from a fresh container, inserting 58 pairwise-distinct keys leaves
the capacity at 63 through the first 57 inserts, the 58th insert grows it to
`63 * 4 = 252` before returning, the final size is 58, and every inserted
key (before and after the growth) is findable with its original value. -/
theorem growth_on_58th_insert [Inhabited V] (h : K → Nat)
    {l : List (K × V)} (hlen : l.length = 58)
    (hnd : (l.map Prod.fst).Nodup) :
    (insertAll (CHMap.init h) (l.take 57)).capacity = kMutexesCount ∧
    (insertAll (CHMap.init h) l).capacity = kMutexesCount * 4 ∧
    (insertAll (CHMap.init h) l).size = 58 ∧
    ∀ p ∈ l, Find (insertAll (CHMap.init h) l) p.1 = (true, p.2) := by
  obtain ⟨p58, hdrop⟩ : ∃ p, l.drop 57 = [p] := by
    refine List.length_eq_one.1 ?_
    rw [List.length_drop, hlen]
  have hsplitl : l = l.take 57 ++ [p58] := by
    rw [← hdrop, List.take_append_drop]
  have htklen : (l.take 57).length = 57 := by
    rw [List.length_take, hlen]
    omega
  have hndtk : ((l.take 57).map Prod.fst).Nodup := by
    rw [List.map_take]
    exact hnd.sublist (List.take_sublist 57 (l.map Prod.fst))
  have hfresh0 : ∀ p ∈ l.take 57, ∀ q ∈ entries (CHMap.init (V := V) h),
      q.1 ≠ p.1 := by
    intro p hp q hq
    rw [show entries (CHMap.init (V := V) h) = [] from
      flatten_replicate_nil kMutexesCount] at hq
    simp at hq
  obtain ⟨hw57, hcap57, hsize57, hperm57⟩ :=
    insertAll_fresh_below (wf_init h) hndtk hfresh0 rfl
      (by rw [htklen]; rfl)
  rw [show (CHMap.init (V := V) h).size = 0 from rfl, Nat.zero_add]
    at hsize57
  have hperm57' : List.Perm (entries (insertAll (CHMap.init h) (l.take 57)))
      (l.take 57) := by
    refine hperm57.trans ?_
    rw [show entries (CHMap.init (V := V) h) = [] from
      flatten_replicate_nil kMutexesCount, List.nil_append]
  have hstep : insertAll (CHMap.init (V := V) h) l =
      (Insert (insertAll (CHMap.init h) (l.take 57)) p58.1 p58.2).1 := by
    conv in insertAll _ l => rw [hsplitl]
    rw [insertAll, List.foldl_append]
    rfl
  have hload : loadFactorReached (insertAll (CHMap.init (V := V) h)
      (l.take 57)) = true := by
    unfold loadFactorReached
    rw [hcap57, hsize57, htklen]
    rfl
  have hdisj := List.disjoint_of_nodup_append
    (by rw [← List.map_append, ← hsplitl]; exact hnd)
  have hfresh58 : ∀ q ∈ entries (insertAll (CHMap.init (V := V) h)
      (l.take 57)), q.1 ≠ p58.1 := by
    intro q hq hq1
    have hq' : q ∈ l.take 57 := hperm57'.mem_iff.1 hq
    have : q.1 ∈ (l.take 57).map Prod.fst := List.mem_map_of_mem Prod.fst hq'
    have hmem58 : q.1 ∈ [p58].map Prod.fst := by
      rw [hq1]
      exact List.mem_cons_self _ _
    exact hdisj this hmem58
  have hsucc := (insert_success_iff hw57 p58.1 p58.2).2 hfresh58
  obtain ⟨hwf58, hperm58, hsize58⟩ := insert_spec hw57 p58.1 p58.2
  rw [if_pos hsucc] at hperm58 hsize58
  have hcap58 : (Insert (insertAll (CHMap.init (V := V) h) (l.take 57))
      p58.1 p58.2).1.capacity = kMutexesCount * 4 := by
    rw [insert_capacity, if_pos hload, hcap57]
  refine ⟨hcap57, by rw [hstep]; exact hcap58, ?_, ?_⟩
  · rw [hstep, hsize58, hsize57, htklen]
  · intro p hp
    rw [hstep]
    refine find_of_mem hwf58 ?_
    refine hperm58.mem_iff.2 ?_
    rcases List.mem_append.1 (by rw [← hsplitl]; exact hp :
        p ∈ l.take 57 ++ [p58]) with hp' | hp'
    · exact List.mem_cons_of_mem _ (hperm57'.mem_iff.2 hp')
    · have : p = p58 := by simpa using hp'
      rw [this]
      exact List.mem_cons_self _ _

theorem growth_on_58th_insert_witness :
    (insertAll (CHMap.init (fun n : Nat => n))
      ((List.range 58).map (fun i => (i, i)))).capacity =
        kMutexesCount * 4 ∧
    (insertAll (CHMap.init (fun n : Nat => n))
      ((List.range 58).map (fun i => (i, i)))).size = 58 := by
  have h := growth_on_58th_insert (fun n : Nat => n)
    (l := (List.range 58).map (fun i => (i, i))) (by decide) (by decide)
  exact ⟨h.2.1, h.2.2.1⟩

/-- C4: from a fresh container, along any clear-free operation sequence the
final `Size()` plus the number of successful erases equals the number of
successful inserts (`size = N - M`); on every reachable state `Size()`
equals the number of stored entries; `Insert` increments the counter exactly
when it returns true, `Erase` decrements it exactly when it returns true,
and `Rehash` changes neither the counter nor the entries (up to bucket
redistribution). -/
theorem size_counter_correct (h : K → Nat) (ops : List (Op K V))
    (hclr : Op.clr ∉ ops) :
    Size (runStats (CHMap.init h) ops).1 + (runStats (CHMap.init h) ops).2.2 =
      (runStats (CHMap.init h) ops).2.1 ∧
    (∀ m : ConcurrentHashMap K V, Reachable m →
      Size m = (entries m).length) ∧
    (∀ m : ConcurrentHashMap K V, WF m → ∀ (k : K) (v : V),
      (Insert m k v).1.size =
        (if (Insert m k v).2 = true then m.size + 1 else m.size)) ∧
    (∀ m : ConcurrentHashMap K V, WF m → ∀ k : K,
      (Erase m k).1.size =
        (if (Erase m k).2 = true then m.size - 1 else m.size)) ∧
    (∀ m : ConcurrentHashMap K V, WF m →
      (Rehash m).size = m.size ∧
      List.Perm (entries (Rehash m)) (entries m)) := by
  refine ⟨?_, ?_, ?_, ?_, ?_⟩
  · have hrun := (runStats_spec (wf_init h) hclr).2
    rw [show (CHMap.init (V := V) h).size = 0 from rfl, Nat.zero_add] at hrun
    exact hrun
  · intro m hr
    exact (wf_reachable hr).size_eq
  · intro m hw k v
    exact (insert_spec hw k v).2.2
  · intro m hw k
    exact erase_size hw k
  · intro m hw
    exact ⟨rehash_size m, rehash_entries_perm hw.cap_pos⟩

theorem size_counter_correct_witness :
    Size (runStats (CHMap.init (V := Nat) (fun n : Nat => n))
        [Op.ins 1 10, Op.ins 2 20, Op.del 1]).1 +
      (runStats (CHMap.init (V := Nat) (fun n : Nat => n))
        [Op.ins 1 10, Op.ins 2 20, Op.del 1]).2.2 =
      (runStats (CHMap.init (V := Nat) (fun n : Nat => n))
        [Op.ins 1 10, Op.ins 2 20, Op.del 1]).2.1 :=
  (size_counter_correct (fun n : Nat => n)
    [Op.ins 1 10, Op.ins 2 20, Op.del 1] (by decide)).1

/-- C5: after `Clear()`, `Size()` is 0, `Find` returns `(false, default)`
for every key, the storage is 63 (= stripe count) empty buckets with the
capacity reset to its initial value, and a subsequent `Insert` of any key
succeeds. -/
theorem clear_correct [Inhabited V] (m : ConcurrentHashMap K V) :
    Size (Clear m) = 0 ∧
    (∀ k : K, Find (Clear m) k = (false, default)) ∧
    (Clear m).data = List.replicate kMutexesCount [] ∧
    (Clear m).capacity = kMutexesCount ∧
    (∀ (k : K) (v : V), (Insert (Clear m) k v).2 = true) := by
  refine ⟨rfl, ?_, rfl, rfl, ?_⟩
  · intro k
    simp [Find, findInList_clear]
  · intro k v
    have hl : loadFactorReached (Clear m) = false := rfl
    rw [insert_eq_no_growth hl]
    simp [insertLocked, findInList_clear]

/-- C6: `At k` fails (returns the KeyNotFound outcome, modelling the thrown
`std::out_of_range`) exactly when `k` is absent, and on a present key it
returns precisely the value component `Find` reports with `true`.  `At` is a
pure observer of the state in this embedding, as in the `const` method of
the source. -/
theorem at_spec [Inhabited V] {m : ConcurrentHashMap K V} (hw : WF m)
    (k : K) :
    (At m k = none ↔ ∀ p ∈ entries m, p.1 ≠ k) ∧
    (∀ v : V, At m k = some v ↔ Find m k = (true, v)) := by
  constructor
  · rcases hf : FindInList m (m.hasher k % m.capacity) k with - | p
    · simp only [At, hf]
      simpa using (findInList_eq_none hw).1 hf
    · simp only [At, hf]
      constructor
      · intro hcon
        exact Option.noConfusion hcon
      · intro habs
        obtain ⟨hk, hpe⟩ := findInList_eq_some hw hf
        exact absurd hk (habs p hpe)
  · intro v
    rcases hf : FindInList m (m.hasher k % m.capacity) k with - | p <;>
      simp [At, Find, hf]

theorem at_spec_witness :
    At (Insert (CHMap.init (V := Nat) (fun n : Nat => n)) 5 7).1 5 =
      some 7 := by
  have h := at_spec
    (insert_spec (wf_init (fun n : Nat => n)) 5 7).1 5
  exact (h.2 7).2 (by decide)

/-- C7: `Erase k` returns true exactly when `k` is present; the flattened
entry list of the result is the original one with exactly the matching entry
removed (all other entries kept in order); on an absent key the state is
returned unchanged with `false`; and afterwards `k` is absent. -/
theorem erase_spec {m : ConcurrentHashMap K V} (hw : WF m) (k : K) :
    ((Erase m k).2 = true ↔ ∃ p ∈ entries m, p.1 = k) ∧
    entries (Erase m k).1 =
      (entries m).eraseP (fun p => decide (p.1 = k)) ∧
    ((∀ p ∈ entries m, p.1 ≠ k) → Erase m k = (m, false)) ∧
    (∀ q ∈ entries (Erase m k).1, q.1 ≠ k) := by
  by_cases hp : ∃ p ∈ entries m, p.1 = k
  · obtain ⟨h2, he, -, -, -, hafter⟩ := erase_present hw hp
    refine ⟨⟨fun _ => hp, fun _ => h2⟩, he, ?_, hafter⟩
    intro habs
    obtain ⟨p, hpe, hpk⟩ := hp
    exact absurd hpk (habs p hpe)
  · push_neg at hp
    have habs := erase_absent hw hp
    have herased : (entries m).eraseP (fun p => decide (p.1 = k)) =
        entries m :=
      List.eraseP_of_forall_not (fun a ha => by simpa using hp a ha)
    refine ⟨?_, ?_, fun _ => habs, ?_⟩
    · constructor
      · intro h2
        rw [habs] at h2
        exact Bool.noConfusion h2
      · intro hex
        obtain ⟨p, hpe, hpk⟩ := hex
        exact absurd hpk (hp p hpe)
    · rw [habs, herased]
    · intro q hq
      rw [habs] at hq
      exact hp q hq

theorem erase_spec_witness :
    (Erase (Insert (CHMap.init (V := Nat) (fun n : Nat => n)) 5 7).1 5).2 =
      true := by
  have h := erase_spec
    (insert_spec (wf_init (fun n : Nat => n)) 5 7).1 5
  exact h.1.2 ⟨(5, 7), by decide, rfl⟩

set_option maxRecDepth 4000 in
/-- C8 counterexample: in a reachable state holding the 57 keys 0..56
(load factor 57/63 > 0.9), inserting the already-present key 0 returns
`false` but still changes the container state — the pre-insert load-factor
check rehashes, growing the capacity from 63 to 252. -/
theorem insert_present_modifies_counterexample :
    (Insert (insertAll (CHMap.init (fun n : Nat => n))
        ((List.range 57).map (fun i => (i, i)))) 0 99).2 = false ∧
    (Insert (insertAll (CHMap.init (fun n : Nat => n))
        ((List.range 57).map (fun i => (i, i)))) 0 99).1.capacity ≠
      (insertAll (CHMap.init (fun n : Nat => n))
        ((List.range 57).map (fun i => (i, i)))).capacity := by
  decide

/-- C8 amended: if `k` is already present, `Insert k v` returns `false` and
leaves the entries, the stored value for `k`, and the size unchanged; the
whole state is bitwise unchanged provided the load factor is below the 0.9
threshold (otherwise the pre-insert check may rehash first, changing
capacity and bucket layout while preserving the entries). -/
theorem insert_present_no_modification {m : ConcurrentHashMap K V}
    (hw : WF m) (k : K) (v : V)
    (hpres : ∃ p ∈ entries m, p.1 = k) :
    (Insert m k v).2 = false ∧
    List.Perm (entries (Insert m k v).1) (entries m) ∧
    (Insert m k v).1.size = m.size ∧
    (loadFactorReached m = false → Insert m k v = (m, false)) := by
  obtain ⟨p, hpe, hpk⟩ := hpres
  have hne : (Insert m k v).2 ≠ true :=
    fun h => (insert_success_iff hw k v).1 h p hpe hpk
  have h2 : (Insert m k v).2 = false := by
    cases hb : (Insert m k v).2
    · rfl
    · exact absurd hb hne
  obtain ⟨-, hperm, hsize⟩ := insert_spec hw k v
  rw [if_neg (by simp [h2])] at hperm hsize
  refine ⟨h2, hperm, hsize, ?_⟩
  intro hl
  rw [insert_eq_no_growth hl]
  exact insertLocked_present hw v ⟨p, hpe, hpk⟩

theorem insert_present_no_modification_witness :
    Insert (Insert (CHMap.init (V := Nat) (fun n : Nat => n)) 5 7).1 5 9 =
      ((Insert (CHMap.init (V := Nat) (fun n : Nat => n)) 5 7).1, false) := by
  have h := insert_present_no_modification
    (insert_spec (wf_init (fun n : Nat => n)) 5 7).1 5 9
    ⟨(5, 7), by decide, rfl⟩
  exact h.2.2.2 (by decide)

/-- C10: `Erase` never changes the capacity or the storage-array length,
whatever the state — in particular even when the load factor currently
exceeds the growth threshold (there is no hypothesis on `m`); and `Size` is
a plain read of the counter.  `Find` and `At` are pure observers in this
embedding (they return no state), mirroring the `const` methods. -/
theorem only_insert_grows (m : ConcurrentHashMap K V) (k : K) :
    (Erase m k).1.capacity = m.capacity ∧
    (Erase m k).1.data.length = m.data.length ∧
    Size m = m.size :=
  ⟨erase_capacity m k, erase_data_length m k, rfl⟩

end CHMap
